import Mathlib

/-!
Shallow embedding of the laughter-analysis pipeline of `laughAnalysis.py`
(Gailbot-3): instance segmentation (`getLaughterInstances`), transcript
merging (`transcribeLaugh`), feature formatting (`getFeatureList` and
friends) and the zero-phase low-pass filter (`lowpass`).  Probabilities,
times and feature values are modelled as rationals; frame indices as
naturals; Python lists as Lean lists.  External library calls (librosa
delta features, scipy butter coefficients and initial filter state) enter
as explicit function parameters, since they are not part of this
repository's code.
-/

namespace LaughAnalysis

/-! ## Instance segmenter (`getLaughterInstances` and helpers) -/

/-- Source function `frame_span_to_time_span`: divide both frame indices
by 100 to convert to seconds. -/
def frame_span_to_time_span (s : ℕ × ℕ) : ℚ × ℚ :=
  ((s.1 : ℚ) / 100, (s.2 : ℚ) / 100)

/-- Source function `collapse_to_start_and_end_frame`: first (`[0]`) and
last (`[-1]`) element of a run.  The runs this is applied to are always
non-empty, so the defaults are never read. -/
def collapse_to_start_and_end_frame (run : List ℕ) : ℕ × ℕ :=
  (run.headD 0, run.getLastD 0)

/-- One iteration of the scan loop of `getLaughterInstances`: if the
probability at the current index exceeds the threshold the index joins the
current run, otherwise a non-empty current run is closed and appended. -/
def runStep (threshold : ℚ) (acc : List (List ℕ) × List ℕ) (ip : ℕ × ℚ) :
    List (List ℕ) × List ℕ :=
  if threshold < ip.2 then (acc.1, acc.2 ++ [ip.1])
  else if acc.2 = [] then (acc.1, []) else (acc.1 ++ [acc.2], [])

/-- Source function `getLaughterInstances`: scan the probabilities in
index order accumulating runs of frames strictly above the threshold
(`numpy.min(probs[i:i+1])` is just `probs[i]`), keep the closed runs whose
length strictly exceeds `minLength`, and collapse each to a time span.
The loop never appends the run still open after the last frame. -/
def getLaughterInstances (probs : List ℚ) (threshold minLength : ℚ) :
    List (ℚ × ℚ) :=
  let scanned := List.foldl (runStep threshold) ([], []) probs.enum
  (scanned.1.filter (fun r => decide (minLength < (r.length : ℚ)))).map
    (fun r => frame_span_to_time_span (collapse_to_start_and_end_frame r))

/-- Structural-recursion companion of the scan loop: the runs the loop
closes while consuming `ps`, starting at frame index `k` with current run
`cur`.  The run still open when the list ends is dropped, exactly as in
the source loop. -/
def runsAux (threshold : ℚ) : List ℚ → ℕ → List ℕ → List (List ℕ)
  | [], _, _ => []
  | p :: ps, k, cur =>
    if threshold < p then runsAux threshold ps (k + 1) (cur ++ [k])
    else if cur = [] then runsAux threshold ps (k + 1) []
    else cur :: runsAux threshold ps (k + 1) []

theorem foldl_runStep_eq (t : ℚ) :
    ∀ (ps : List ℚ) (k : ℕ) (done : List (List ℕ)) (cur : List ℕ),
      (List.foldl (runStep t) (done, cur) (List.enumFrom k ps)).1 =
        done ++ runsAux t ps k cur := by
  intro ps
  induction ps with
  | nil => intro k done cur; simp [runsAux]
  | cons p ps ih =>
    intro k done cur
    rw [List.enumFrom_cons, List.foldl_cons]
    by_cases hp : t < p
    · rw [show runStep t (done, cur) (k, p) = (done, cur ++ [k]) by
        simp [runStep, hp]]
      rw [ih, runsAux]
      simp [hp]
    · by_cases hc : cur = []
      · rw [show runStep t (done, cur) (k, p) = (done, []) by
          simp [runStep, hp, hc]]
        rw [ih, runsAux]
        simp [hp, hc]
      · rw [show runStep t (done, cur) (k, p) = (done ++ [cur], []) by
          simp [runStep, hp, hc]]
        rw [ih, runsAux]
        simp [hp, hc]

theorem scanned_fst_eq (probs : List ℚ) (t : ℚ) :
    (List.foldl (runStep t) ([], []) probs.enum).1 = runsAux t probs 0 [] := by
  have h := foldl_runStep_eq t probs 0 [] []
  simpa [List.enum] using h

theorem drop_cons_facts (probs : List ℚ) (k : ℕ) (p : ℚ) (ps : List ℚ)
    (h : probs.drop k = p :: ps) :
    k < probs.length ∧ probs.getD k 0 = p ∧ probs.drop (k + 1) = ps := by
  have h1 : probs[k]? = some p := by
    rw [← List.head?_drop, h]; rfl
  refine ⟨(List.getElem?_eq_some_iff.mp h1).1, ?_, ?_⟩
  · rw [List.getD_eq_getElem?_getD, h1]; rfl
  · have h2 := congrArg (List.drop 1) h
    rw [List.drop_drop] at h2
    simpa [Nat.add_comm] using h2

/-- Run of consecutive frames `a..b`, all inside the sequence and all
strictly above the threshold. -/
def GoodRun (probs : List ℚ) (threshold : ℚ) (a b : ℕ) : Prop :=
  a ≤ b ∧ b < probs.length ∧
    ∀ i, a ≤ i → i ≤ b → threshold < probs.getD i 0

theorem runsAux_mem (probs : List ℚ) (t : ℚ) :
    ∀ (ps : List ℚ) (k : ℕ) (cur : List ℕ),
      ps = probs.drop k →
      (cur ≠ [] → ∃ a, a < k ∧ cur = List.range' a (k - a) ∧
        ∀ i, a ≤ i → i < k → t < probs.getD i 0) →
      ∀ r ∈ runsAux t ps k cur,
        ∃ a b, r = List.range' a (b + 1 - a) ∧ GoodRun probs t a b := by
  intro ps
  induction ps with
  | nil => intro k cur hps hcur r hr; simp [runsAux] at hr
  | cons p ps ih =>
    intro k cur hps hcur r hr
    obtain ⟨hk, hget, hdrop⟩ := drop_cons_facts probs k p ps hps.symm
    rw [runsAux] at hr
    by_cases hp : t < p
    · rw [if_pos hp] at hr
      refine ih (k + 1) (cur ++ [k]) hdrop.symm ?_ r hr
      intro _
      by_cases hc : cur = []
      · refine ⟨k, by omega, ?_, ?_⟩
        · simp [hc, List.range']
        · intro i hi1 hi2
          have : i = k := by omega
          rw [this, hget]; exact hp
      · obtain ⟨a, ha, hcr, hfr⟩ := hcur hc
        refine ⟨a, by omega, ?_, ?_⟩
        · rw [hcr, show k + 1 - a = (k - a) + 1 by omega, List.range'_concat,
            show a + 1 * (k - a) = k by omega]
        · intro i hi1 hi2
          by_cases hik : i < k
          · exact hfr i hi1 hik
          · have : i = k := by omega
            rw [this, hget]; exact hp
    · rw [if_neg hp] at hr
      by_cases hc : cur = []
      · rw [if_pos hc] at hr
        exact ih (k + 1) [] hdrop.symm (fun hx => absurd rfl hx) r hr
      · rw [if_neg hc] at hr
        rcases List.mem_cons.mp hr with hrc | hrr
        · obtain ⟨a, ha, hcr, hfr⟩ := hcur hc
          refine ⟨a, k - 1, ?_, by omega, by omega, ?_⟩
          · rw [hrc, hcr, show k - 1 + 1 - a = k - a by omega]
          · intro i hi1 hi2
            exact hfr i hi1 (by omega)
        · exact ih (k + 1) [] hdrop.symm (fun hx => absurd rfl hx) r hrr

theorem runsAux_ne_nil (t : ℚ) :
    ∀ (ps : List ℚ) (k : ℕ) (cur : List ℕ),
      ∀ r ∈ runsAux t ps k cur, r ≠ [] := by
  intro ps
  induction ps with
  | nil => intro k cur r hr; simp [runsAux] at hr
  | cons p ps ih =>
    intro k cur r hr
    rw [runsAux] at hr
    by_cases hp : t < p
    · rw [if_pos hp] at hr; exact ih (k + 1) (cur ++ [k]) r hr
    · rw [if_neg hp] at hr
      by_cases hc : cur = []
      · rw [if_pos hc] at hr; exact ih (k + 1) [] r hr
      · rw [if_neg hc] at hr
        rcases List.mem_cons.mp hr with hrc | hrr
        · rw [hrc]; exact hc
        · exact ih (k + 1) [] r hrr

theorem runsAux_lb (t : ℚ) :
    ∀ (ps : List ℚ) (k : ℕ) (cur : List ℕ) (m : ℕ), m ≤ k →
      (∀ i ∈ cur, m ≤ i) →
      ∀ r ∈ runsAux t ps k cur, ∀ i ∈ r, m ≤ i := by
  intro ps
  induction ps with
  | nil => intro k cur m _ _ r hr; simp [runsAux] at hr
  | cons p ps ih =>
    intro k cur m hmk hcur r hr
    rw [runsAux] at hr
    by_cases hp : t < p
    · rw [if_pos hp] at hr
      refine ih (k + 1) (cur ++ [k]) m (by omega) ?_ r hr
      intro i hi
      rcases List.mem_append.mp hi with h1 | h2
      · exact hcur i h1
      · simp at h2; omega
    · rw [if_neg hp] at hr
      by_cases hc : cur = []
      · rw [if_pos hc] at hr
        exact ih (k + 1) [] m (by omega) (by simp) r hr
      · rw [if_neg hc] at hr
        rcases List.mem_cons.mp hr with hrc | hrr
        · intro i hi; exact hcur i (hrc ▸ hi)
        · exact ih (k + 1) [] m (by omega) (by simp) r hrr

theorem headD_mem_self {α : Type} (l : List α) (d : α) (h : l ≠ []) :
    l.headD d ∈ l := by
  cases l with
  | nil => exact absurd rfl h
  | cons a s => simp

theorem getLastD_mem_self {α : Type} (l : List α) (d : α) (h : l ≠ []) :
    l.getLastD d ∈ l := by
  rw [List.getLastD_eq_getLast?, List.getLast?_eq_getLast l h]
  simp [List.getLast_mem]

theorem runsAux_pairwise (t : ℚ) :
    ∀ (ps : List ℚ) (k : ℕ) (cur : List ℕ),
      (∀ i ∈ cur, i < k) →
      List.Pairwise (fun r1 r2 => r1.getLastD 0 < r2.headD 0)
        (runsAux t ps k cur) := by
  intro ps
  induction ps with
  | nil => intro k cur _; simp [runsAux]
  | cons p ps ih =>
    intro k cur hcur
    rw [runsAux]
    by_cases hp : t < p
    · rw [if_pos hp]
      refine ih (k + 1) (cur ++ [k]) ?_
      intro i hi
      rcases List.mem_append.mp hi with h1 | h2
      · exact Nat.lt_succ_of_lt (hcur i h1)
      · simp at h2; omega
    · rw [if_neg hp]
      by_cases hc : cur = []
      · rw [if_pos hc]; exact ih (k + 1) [] (by simp)
      · rw [if_neg hc]
        refine List.pairwise_cons.mpr ⟨?_, ih (k + 1) [] (by simp)⟩
        intro r hr
        have hlast : cur.getLastD 0 < k := hcur _ (getLastD_mem_self cur 0 hc)
        have hrne : r ≠ [] := runsAux_ne_nil t ps (k + 1) [] r hr
        have hhead : k + 1 ≤ r.headD 0 :=
          runsAux_lb t ps (k + 1) [] (k + 1) le_rfl (by simp) r hr _
            (headD_mem_self r 0 hrne)
        omega

theorem headD_range' (a n : ℕ) (h : 0 < n) :
    (List.range' a n).headD 0 = a := by
  cases n with
  | zero => omega
  | succ m => rw [List.range'_succ]; rfl

theorem getLastD_range' (a n : ℕ) (h : 0 < n) :
    (List.range' a n).getLastD 0 = a + n - 1 := by
  cases n with
  | zero => omega
  | succ m =>
    rw [List.range'_concat, List.getLastD_concat]
    omega

theorem foldl_fst_of_above (t : ℚ) :
    ∀ (tail : List ℚ) (k : ℕ) (st : List (List ℕ) × List ℕ),
      (∀ p ∈ tail, t < p) →
      (List.foldl (runStep t) st (List.enumFrom k tail)).1 = st.1 := by
  intro tail
  induction tail with
  | nil => intro k st _; rfl
  | cons p ps ih =>
    intro k st h
    rw [List.enumFrom_cons, List.foldl_cons,
      show runStep t st (k, p) = (st.1, st.2 ++ [k]) by
        simp [runStep, h p (by simp)]]
    exact ih (k + 1) _ (fun q hq => h q (by simp [hq]))

/-- C7: on the probability sequence
`[0,0,0,0.9,0.9,0.9,0.9,0.9,0.9,0,0]` with threshold `0.5` and
`minLength = 3`, `getLaughterInstances` returns exactly the one instance
`(0.03, 0.08)` (frames 3 to 8, divided by the fixed 100 frames/sec). -/
theorem getLaughterInstances_concrete :
    getLaughterInstances
        [0, 0, 0, 9/10, 9/10, 9/10, 9/10, 9/10, 9/10, 0, 0] (1/2) 3 =
      [(3/100, 8/100)] := by
  norm_num +decide [getLaughterInstances, runStep, List.enum, List.enumFrom,
    frame_span_to_time_span, collapse_to_start_and_end_frame, List.filter]

/-- C5: every instance returned by `getLaughterInstances` comes from a run
of consecutive frames `a..b` inside the sequence whose frame count
`b + 1 - a` strictly exceeds `minLength`, with every frame of the run
strictly above the threshold, and the instance is that run collapsed to
`(a/100, b/100)`. -/
theorem getLaughterInstances_sound (probs : List ℚ)
    (threshold minLength : ℚ) (inst : ℚ × ℚ)
    (h : inst ∈ getLaughterInstances probs threshold minLength) :
    ∃ a b : ℕ, a ≤ b ∧ b < probs.length ∧
      inst = ((a : ℚ) / 100, (b : ℚ) / 100) ∧
      minLength < ((b + 1 - a : ℕ) : ℚ) ∧
      ∀ i : ℕ, a ≤ i → i ≤ b → threshold < probs.getD i 0 := by
  simp only [getLaughterInstances] at h
  rw [scanned_fst_eq] at h
  obtain ⟨r, hrf, hmap⟩ := List.mem_map.mp h
  obtain ⟨hrm, hpred⟩ := List.mem_filter.mp hrf
  obtain ⟨a, b, hr, hab, hbl, hfr⟩ :=
    runsAux_mem probs threshold probs 0 [] rfl
      (fun hx => absurd rfl hx) r hrm
  refine ⟨a, b, hab, hbl, ?_, ?_, hfr⟩
  · rw [← hmap, hr]
    have hlen : 0 < b + 1 - a := by omega
    simp only [collapse_to_start_and_end_frame, frame_span_to_time_span,
      headD_range' a _ hlen, getLastD_range' a _ hlen]
    have : a + (b + 1 - a) - 1 = b := by omega
    rw [this]
  · have := of_decide_eq_true hpred
    rwa [hr, List.length_range'] at this

/-- C6: the instance list returned by `getLaughterInstances` is strictly
ordered ascending by start time, and the time spans of any two instances
are disjoint (each instance ends strictly before the next one starts). -/
theorem getLaughterInstances_ordered (probs : List ℚ)
    (threshold minLength : ℚ) :
    List.Pairwise (fun x y : ℚ × ℚ => x.1 < y.1 ∧ x.2 < y.1)
      (getLaughterInstances probs threshold minLength) := by
  simp only [getLaughterInstances]
  rw [scanned_fst_eq]
  have hpw : List.Pairwise (fun r1 r2 => r1.getLastD 0 < r2.headD 0)
      (runsAux threshold probs 0 []) :=
    runsAux_pairwise threshold probs 0 [] (by simp)
  have hpwf : List.Pairwise (fun r1 r2 => r1.getLastD 0 < r2.headD 0)
      (List.filter (fun r => decide (minLength < (r.length : ℚ)))
        (runsAux threshold probs 0 [])) :=
    List.Pairwise.sublist (List.filter_sublist _) hpw
  rw [List.pairwise_map]
  refine hpwf.imp_of_mem ?_
  intro r1 r2 h1 h2 hlt
  obtain ⟨a1, b1, hr1, hab1, _, _⟩ :=
    runsAux_mem probs threshold probs 0 [] rfl
      (fun hx => absurd rfl hx) r1 (List.mem_of_mem_filter h1)
  obtain ⟨a2, b2, hr2, hab2, _, _⟩ :=
    runsAux_mem probs threshold probs 0 [] rfl
      (fun hx => absurd rfl hx) r2 (List.mem_of_mem_filter h2)
  have hl1 : 0 < b1 + 1 - a1 := by omega
  have hl2 : 0 < b2 + 1 - a2 := by omega
  rw [hr1, hr2, getLastD_range' _ _ hl1, headD_range' _ _ hl2] at hlt
  have hb1a2 : b1 < a2 := by omega
  simp only [collapse_to_start_and_end_frame, frame_span_to_time_span,
    hr1, hr2, headD_range' _ _ hl1, headD_range' _ _ hl2,
    getLastD_range' _ _ hl1]
  constructor
  · refine div_lt_div_of_pos_right (Nat.cast_lt.mpr ?_) (by norm_num)
    omega
  · refine div_lt_div_of_pos_right (Nat.cast_lt.mpr ?_) (by norm_num)
    omega

/-- C1 counterexample: on `[0.9, 0.9, 0.9, 0.9]` with threshold `0.5` and
`minLength = 3` the run of frames 0..3 is open at the final frame, its
length 4 strictly exceeds 3, yet `getLaughterInstances` returns no
instance: the run open at the end of the sequence is dropped, not
evaluated. -/
theorem getLaughterInstances_trailing_cex :
    getLaughterInstances [9/10, 9/10, 9/10, 9/10] (1/2) 3 = [] ∧
      (3 : ℚ) < 4 := by
  constructor
  · norm_num +decide [getLaughterInstances, runStep, List.enum,
      List.enumFrom, frame_span_to_time_span,
      collapse_to_start_and_end_frame, List.filter]
  · norm_num

/-- C1 amended: a run still open at the final frame is dropped, never
closed or evaluated: appending any tail of frames strictly above the
threshold to a probability sequence leaves the output of
`getLaughterInstances` unchanged, whatever `minLength` is. -/
theorem getLaughterInstances_drops_open_run (probs tail : List ℚ)
    (t m : ℚ) (h : ∀ p ∈ tail, t < p) :
    getLaughterInstances (probs ++ tail) t m =
      getLaughterInstances probs t m := by
  simp only [getLaughterInstances]
  have hfst : (List.foldl (runStep t) ([], []) (probs ++ tail).enum).1 =
      (List.foldl (runStep t) ([], []) probs.enum).1 := by
    rw [show (probs ++ tail).enum =
          probs.enum ++ List.enumFrom probs.length tail by
        simp [List.enum, List.enumFrom_append],
      List.foldl_append]
    exact foldl_fst_of_above t tail _ _ h
  rw [hfst]

/-- Witness for the amended C1 at a concrete input. -/
theorem getLaughterInstances_drops_open_run_witness :
    getLaughterInstances ([] ++ [9/10]) (1/2) 0 =
      getLaughterInstances [] (1/2) 0 :=
  getLaughterInstances_drops_open_run [] [9/10] (1/2) 0 (by norm_num)

/-- Witness for C5 at the concrete sequence of C7's scenario. -/
theorem getLaughterInstances_sound_witness :
    (3/100, 8/100) ∈ getLaughterInstances
        [0, 0, 0, 9/10, 9/10, 9/10, 9/10, 9/10, 9/10, 0, 0] (1/2) 3 ∧
      ∃ a b : ℕ, a ≤ b ∧
        b < ([0, 0, 0, 9/10, 9/10, 9/10, 9/10, 9/10, 9/10, 0, 0] :
          List ℚ).length ∧
        ((3/100 : ℚ), (8/100 : ℚ)) = ((a : ℚ) / 100, (b : ℚ) / 100) ∧
        (3 : ℚ) < ((b + 1 - a : ℕ) : ℚ) ∧
        ∀ i : ℕ, a ≤ i → i ≤ b →
          (1/2 : ℚ) <
            ([0, 0, 0, 9/10, 9/10, 9/10, 9/10, 9/10, 9/10, 0, 0] :
              List ℚ).getD i 0 := by
  have hm : ((3/100 : ℚ), (8/100 : ℚ)) ∈ getLaughterInstances
      [0, 0, 0, 9/10, 9/10, 9/10, 9/10, 9/10, 9/10, 0, 0] (1/2) 3 := by
    rw [show getLaughterInstances
        [0, 0, 0, 9/10, 9/10, 9/10, 9/10, 9/10, 9/10, 0, 0] (1/2) 3 =
        [(3/100, 8/100)] by
      norm_num +decide [getLaughterInstances, runStep, List.enum,
        List.enumFrom, frame_span_to_time_span,
        collapse_to_start_and_end_frame, List.filter]]
    simp
  exact ⟨hm, getLaughterInstances_sound _ _ _ _ hm⟩

/-! ## Transcript merger (`transcribeLaugh`) -/

/-- Transcript entry `(speakerOrChannelId, startTime, endTime, text)`;
entry 0 of a transcript is the header sentinel. -/
abbrev TranscriptEntry := String × ℚ × ℚ × String

/-- Entry built for one laughter instance in `transcribeLaugh`:
`[jsonList[1][0], instance[0], instance[1], "[^ LAUGHTER ]"]`. -/
def mkLaughEntry (speaker : String) (inst : ℚ × ℚ) : TranscriptEntry :=
  (speaker, inst.1, inst.2, "[^ LAUGHTER ]")

/-- Python's `sorted(·, key=operator.itemgetter(1))`: a stable merge sort
on the start time (component 1 of an entry). -/
def pySortByStart (l : List TranscriptEntry) : List TranscriptEntry :=
  l.mergeSort (fun a b => decide (a.2.1 ≤ b.2.1))

/-- Source function `transcribeLaugh`: build one new entry per instance
sourcing the speaker id from `jsonList[1]` (an `IndexError`, modelled as
`none`, when the transcript is shorter than 2 entries — but only reached
when the instance list is non-empty), append them, and re-sort everything
after the header ascending by start time. -/
def transcribeLaugh (jsonList : List TranscriptEntry)
    (instances : List (ℚ × ℚ)) : Option (List TranscriptEntry) :=
  match instances, jsonList[1]? with
  | [], _ =>
      some (jsonList.take 1 ++ pySortByStart (jsonList.drop 1))
  | _ :: _, none => none
  | _ :: _, some e1 =>
      let newInst := instances.map (mkLaughEntry e1.1)
      let appended := jsonList ++ newInst
      some (appended.take 1 ++ pySortByStart (appended.drop 1))

theorem pySortByStart_perm (l : List TranscriptEntry) :
    (pySortByStart l).Perm l :=
  List.mergeSort_perm l _

theorem pySortByStart_sorted (l : List TranscriptEntry) :
    List.Pairwise (fun a b : TranscriptEntry => a.2.1 ≤ b.2.1)
      (pySortByStart l) := by
  have h := @List.sorted_mergeSort TranscriptEntry
    (fun a b : TranscriptEntry => decide (a.2.1 ≤ b.2.1))
    (fun a b c hab hbc => by
      simp only [decide_eq_true_eq] at *
      exact le_trans hab hbc)
    (fun a b => by
      simp only [Bool.or_eq_true, decide_eq_true_eq]
      exact le_total _ _) l
  exact h.imp (fun hab => of_decide_eq_true hab)

theorem transcribeLaugh_eq (e0 e1 : TranscriptEntry)
    (rest : List TranscriptEntry) (I : List (ℚ × ℚ)) :
    transcribeLaugh (e0 :: e1 :: rest) I =
      some (e0 ::
        pySortByStart ((e1 :: rest) ++ I.map (mkLaughEntry e1.1))) := by
  cases I with
  | nil => simp [transcribeLaugh]
  | cons i I' => simp [transcribeLaugh]

/-- C4: for a transcript of at least 2 entries and any instance list,
`transcribeLaugh` succeeds, keeps the header entry unchanged at index 0,
produces exactly `len(T) - 1 + len(I)` non-header entries, turns each
instance into the entry `(T[1].speakerId, start, end, "[^ LAUGHTER ]")`
present after the header, and leaves the entries from index 1 onward
sorted ascending by start time. -/
theorem transcribeLaugh_merge_spec (T : List TranscriptEntry)
    (I : List (ℚ × ℚ)) (h : 2 ≤ T.length) :
    ∃ out, transcribeLaugh T I = some out ∧
      out.head? = T.head? ∧
      (out.drop 1).length = T.length - 1 + I.length ∧
      (∀ inst ∈ I,
        mkLaughEntry (T.getD 1 default).1 inst ∈ out.drop 1) ∧
      List.Pairwise (fun a b : TranscriptEntry => a.2.1 ≤ b.2.1)
        (out.drop 1) := by
  cases T with
  | nil => simp at h
  | cons e0 T' =>
    cases T' with
    | nil => simp at h
    | cons e1 rest =>
      refine ⟨e0 ::
          pySortByStart ((e1 :: rest) ++ I.map (mkLaughEntry e1.1)),
        transcribeLaugh_eq e0 e1 rest I, rfl, ?_, ?_, ?_⟩
      · have hp :=
          (pySortByStart_perm
            ((e1 :: rest) ++ I.map (mkLaughEntry e1.1))).length_eq
        simp only [List.drop_succ_cons, List.drop_zero, hp]
        simp
        omega
      · intro inst hinst
        have hp := pySortByStart_perm
          ((e1 :: rest) ++ I.map (mkLaughEntry e1.1))
        simp only [List.drop_succ_cons, List.drop_zero]
        rw [hp.mem_iff]
        exact List.mem_append_right _ (List.mem_map_of_mem _ hinst)
      · simp only [List.drop_succ_cons, List.drop_zero]
        exact pySortByStart_sorted _

/-- Witness for C4 at the concrete transcript and instance of the spec's
scenario. -/
theorem transcribeLaugh_merge_spec_witness :
    ∃ out, transcribeLaugh
        [("@Begin", 0, 0, "header"), ("spk1", 0, 1, "hi")]
        [(3/100, 8/100)] = some out ∧
      out.head? = ([("@Begin", 0, 0, "header"), ("spk1", 0, 1, "hi")] :
        List TranscriptEntry).head? ∧
      (out.drop 1).length =
        ([("@Begin", 0, 0, "header"), ("spk1", 0, 1, "hi")] :
          List TranscriptEntry).length - 1 +
          ([(3/100, 8/100)] : List (ℚ × ℚ)).length ∧
      (∀ inst ∈ ([(3/100, 8/100)] : List (ℚ × ℚ)),
        mkLaughEntry
          (([("@Begin", 0, 0, "header"), ("spk1", 0, 1, "hi")] :
            List TranscriptEntry).getD 1 default).1 inst ∈ out.drop 1) ∧
      List.Pairwise (fun a b : TranscriptEntry => a.2.1 ≤ b.2.1)
        (out.drop 1) :=
  transcribeLaugh_merge_spec _ _ (by norm_num)

/-- C3 counterexample: a transcript with fewer than 2 entries together
with an empty instance list does NOT make `transcribeLaugh` fail: on the
empty transcript and no instances it succeeds, returning the empty
transcript (the speaker-id lookup `jsonList[1][0]` is only reached when
the instance list is non-empty). -/
theorem transcribeLaugh_empty_cex :
    transcribeLaugh ([] : List TranscriptEntry) [] = some [] := by
  simp [transcribeLaugh, pySortByStart]

/-- C3 amended: on a transcript with fewer than 2 entries,
`transcribeLaugh` fails (with the index error standing for
`EmptyTranscript`, modelled as `none`) exactly when the instance list is
non-empty; on failure no transcript is produced at all, so the input is
left unmutated. -/
theorem transcribeLaugh_short_fails_iff (T : List TranscriptEntry)
    (I : List (ℚ × ℚ)) (h : T.length < 2) :
    transcribeLaugh T I = none ↔ I ≠ [] := by
  cases I with
  | nil => simp [transcribeLaugh]
  | cons i I' =>
    have h1 : T[1]? = none := by
      rw [List.getElem?_eq_none_iff]
      omega
    simp [transcribeLaugh, h1]

/-- Witness for the amended C3 at a concrete short transcript and
non-empty instance list. -/
theorem transcribeLaugh_short_fails_iff_witness :
    transcribeLaugh ([] : List TranscriptEntry) [((0 : ℚ), (1 : ℚ))] =
      none :=
  (transcribeLaugh_short_fails_iff [] [(0, 1)] (by norm_num)).mpr
    (by simp)

/-! ## Feature extraction (`getFeatureList`, `computeDeltaFeatures`,
`formatFeatures`)

Matrices are lists of rows.  The librosa calls (`librosa.feature.delta`
for orders 1 and 2) are external: they enter as function parameters whose
only assumed contract is that they preserve the shape of their argument,
which is librosa's documented behaviour. -/

abbrev Mat := List (List ℚ)

/-- Transpose of a rectangular matrix (the `.T` of numpy): row `j` of the
result collects entry `j` of every input row.  On the rectangular
matrices this development applies it to, the default entry `0` is never
read. -/
def transposeM (M : Mat) : Mat :=
  (List.range (M.headD []).length).map
    (fun j => M.map (fun row => row.getD j 0))

/-- Source function `computeDeltaFeatures`:
`numpy.vstack([delta(m.T), delta(m.T, order=2)]).T`, with the two
external `librosa.feature.delta` calls passed in as `delta1` and
`delta2`. -/
def computeDeltaFeatures (delta1 delta2 : Mat → Mat)
    (mfccFeatures : Mat) : Mat :=
  transposeM (delta1 (transposeM mfccFeatures) ++
    delta2 (transposeM mfccFeatures))

/-- Python slice `M[a:b]` (with `a ≤ b`, clamped at the length). -/
def pySlice (M : Mat) (a b : ℕ) : Mat := (M.drop a).take (b - a)

/-- Source function `formatFeatures`:
`numpy.append(mfcc[i-w:i+w], delta[i-w:i+w])` flattens both windows and
concatenates them. -/
def formatFeatures (mfccFeatures deltaFeatures : Mat)
    (index window_size : ℕ) : List ℚ :=
  (pySlice mfccFeatures (index - window_size)
    (index + window_size)).flatten ++
  (pySlice deltaFeatures (index - window_size)
    (index + window_size)).flatten

/-- The `numpy.zeros((w, c))` padding blocks; `c` is `shape[1]`, the
common row width, read off the first row. -/
def zeroRows (w c : ℕ) : Mat := List.replicate w (List.replicate c 0)

/-- Source function `getFeatureList` (from the MFCC matrix on: the
waveform-to-MFCC step is an external librosa computation): pad the MFCC
and delta matrices with `window_size` zero rows at both ends, then emit
one formatted feature row per original frame. -/
def getFeatureList (delta1 delta2 : Mat → Mat) (mfccFeatures : Mat)
    (window_size : ℕ) : Mat :=
  let deltaFeatures := computeDeltaFeatures delta1 delta2 mfccFeatures
  let zeroPadMFCC := zeroRows window_size (mfccFeatures.headD []).length
  let zeroPadDelta := zeroRows window_size (deltaFeatures.headD []).length
  let paddedMFCCFeatures := zeroPadMFCC ++ mfccFeatures ++ zeroPadMFCC
  let paddedDeltaFeatures := zeroPadDelta ++ deltaFeatures ++ zeroPadDelta
  (List.range mfccFeatures.length).map
    (fun k => formatFeatures paddedMFCCFeatures paddedDeltaFeatures
      (window_size + k) window_size)

theorem transposeM_length (M : Mat) :
    (transposeM M).length = (M.headD []).length := by
  simp [transposeM]

theorem transposeM_row_length (M : Mat) :
    ∀ row ∈ transposeM M, row.length = M.length := by
  intro row hrow
  simp only [transposeM, List.mem_map, List.mem_range] at hrow
  obtain ⟨j, _, rfl⟩ := hrow
  simp

theorem row_length_of_map_eq {A B : Mat}
    (h : A.map List.length = B.map List.length) (c : ℕ)
    (hB : ∀ row ∈ B, row.length = c) : ∀ row ∈ A, row.length = c := by
  intro row hrow
  have hmem : row.length ∈ B.map List.length := by
    rw [← h]
    exact List.mem_map_of_mem _ hrow
  obtain ⟨row', hrow', hlen⟩ := List.mem_map.mp hmem
  rw [← hlen]
  exact hB row' hrow'

theorem length_of_map_eq {A B : Mat}
    (h : A.map List.length = B.map List.length) : A.length = B.length := by
  have h2 := congrArg List.length h
  simpa using h2

theorem flatten_length_rect (M : Mat) (c : ℕ)
    (h : ∀ row ∈ M, row.length = c) : M.flatten.length = M.length * c := by
  rw [List.length_flatten]
  have hrep : M.map List.length = List.replicate M.length c := by
    rw [List.eq_replicate_iff]
    refine ⟨by simp, fun b hb => ?_⟩
    obtain ⟨row, hrow, rfl⟩ := List.mem_map.mp hb
    exact h row hrow
  rw [hrep, List.sum_replicate, smul_eq_mul]

theorem headD_length_rect {M : Mat} (c : ℕ) (hne : M ≠ [])
    (h : ∀ row ∈ M, row.length = c) : (M.headD []).length = c :=
  h _ (headD_mem_self M [] hne)

/-- C8: the feature matrix has exactly one row per MFCC frame, whatever
the window size and the (shape-preserving) external delta functions, and
row `k` is exactly the formatted feature vector centred at frame `k` of
the padded matrices, so rows are in frame order; the embedding is a pure
function, so the output is determined by the input matrix. -/
theorem getFeatureList_rows (delta1 delta2 : Mat → Mat)
    (mfccFeatures : Mat) (window_size : ℕ) :
    (getFeatureList delta1 delta2 mfccFeatures window_size).length =
      mfccFeatures.length ∧
    ∀ k, k < mfccFeatures.length →
      (getFeatureList delta1 delta2 mfccFeatures window_size)[k]? =
        some (formatFeatures
          (zeroRows window_size (mfccFeatures.headD []).length ++
            mfccFeatures ++
            zeroRows window_size (mfccFeatures.headD []).length)
          (zeroRows window_size
              ((computeDeltaFeatures delta1 delta2
                mfccFeatures).headD []).length ++
            computeDeltaFeatures delta1 delta2 mfccFeatures ++
            zeroRows window_size
              ((computeDeltaFeatures delta1 delta2
                mfccFeatures).headD []).length)
          (window_size + k) window_size) := by
  constructor
  · simp [getFeatureList]
  · intro k hk
    simp [getFeatureList, List.getElem?_range, hk]

/-- Witness for C8 at a concrete one-frame matrix. -/
theorem getFeatureList_rows_witness :
    (getFeatureList (fun M => M) (fun M => M) [[(1 : ℚ)]] 1).length =
      ([[(1 : ℚ)]] : Mat).length ∧
    (getFeatureList (fun M => M) (fun M => M) [[(1 : ℚ)]] 1)[0]? =
      some (formatFeatures
        (zeroRows 1 (([[(1 : ℚ)]] : Mat).headD []).length ++ [[(1 : ℚ)]] ++
          zeroRows 1 (([[(1 : ℚ)]] : Mat).headD []).length)
        (zeroRows 1
            ((computeDeltaFeatures (fun M => M) (fun M => M)
              [[(1 : ℚ)]]).headD []).length ++
          computeDeltaFeatures (fun M => M) (fun M => M) [[(1 : ℚ)]] ++
          zeroRows 1
            ((computeDeltaFeatures (fun M => M) (fun M => M)
              [[(1 : ℚ)]]).headD []).length)
        (1 + 0) 1) :=
  ⟨(getFeatureList_rows (fun M => M) (fun M => M) [[(1 : ℚ)]] 1).1,
    (getFeatureList_rows (fun M => M) (fun M => M) [[(1 : ℚ)]] 1).2 0
      (by norm_num)⟩

/-- C2 amended: with shape-preserving external delta functions and a
13-column MFCC matrix (12 MFCC + 1 RMS), every feature row splits as the
MFCC window of width `2 * window_size * 13` followed by the delta window
of width `2 * window_size * 26`: the delta half stacks the order-1 and
order-2 deltas, so it is 26 coefficients per frame, not 13, and the total
row width is `2 * window_size * 39`, not `4 * window_size * 13`. -/
theorem getFeatureList_row_width (delta1 delta2 : Mat → Mat)
    (hd1 : ∀ M, (delta1 M).map List.length = M.map List.length)
    (hd2 : ∀ M, (delta2 M).map List.length = M.map List.length)
    (mfccFeatures : Mat) (window_size : ℕ)
    (hrect : ∀ row ∈ mfccFeatures, row.length = 13) :
    ∀ row ∈ getFeatureList delta1 delta2 mfccFeatures window_size,
      ∃ u v, row = u ++ v ∧ u.length = 2 * window_size * 13 ∧
        v.length = 2 * window_size * 26 := by
  intro row hrow
  cases mfccFeatures with
  | nil => simp [getFeatureList] at hrow
  | cons r0 mrest =>
    have hr0 : r0.length = 13 := hrect r0 (by simp)
    simp only [getFeatureList, List.mem_map, List.mem_range,
      List.headD_cons] at hrow
    obtain ⟨k, hk, hkrow⟩ := hrow
    have hT_rows : ∀ s ∈ transposeM (r0 :: mrest),
        s.length = (r0 :: mrest).length := transposeM_row_length _
    have hT_len : (transposeM (r0 :: mrest)).length = 13 := by
      rw [transposeM_length, List.headD_cons, hr0]
    have hD1_rows : ∀ s ∈ delta1 (transposeM (r0 :: mrest)),
        s.length = (r0 :: mrest).length :=
      row_length_of_map_eq (hd1 _) _ hT_rows
    have hD2_rows : ∀ s ∈ delta2 (transposeM (r0 :: mrest)),
        s.length = (r0 :: mrest).length :=
      row_length_of_map_eq (hd2 _) _ hT_rows
    have hD1_len : (delta1 (transposeM (r0 :: mrest))).length = 13 := by
      rw [length_of_map_eq (hd1 _), hT_len]
    have hD2_len : (delta2 (transposeM (r0 :: mrest))).length = 13 := by
      rw [length_of_map_eq (hd2 _), hT_len]
    have hS_rows : ∀ s ∈ delta1 (transposeM (r0 :: mrest)) ++
        delta2 (transposeM (r0 :: mrest)),
        s.length = (r0 :: mrest).length := by
      intro s hs
      rcases List.mem_append.mp hs with h1 | h2
      · exact hD1_rows s h1
      · exact hD2_rows s h2
    have hS_len : (delta1 (transposeM (r0 :: mrest)) ++
        delta2 (transposeM (r0 :: mrest))).length = 26 := by
      rw [List.length_append, hD1_len, hD2_len]
    have hS_ne : delta1 (transposeM (r0 :: mrest)) ++
        delta2 (transposeM (r0 :: mrest)) ≠ [] := by
      intro hnil
      rw [hnil] at hS_len
      simp at hS_len
    have hdF_len :
        (computeDeltaFeatures delta1 delta2 (r0 :: mrest)).length =
          (r0 :: mrest).length := by
      unfold computeDeltaFeatures
      rw [transposeM_length]
      exact headD_length_rect _ hS_ne hS_rows
    have hdF_rows : ∀ s ∈ computeDeltaFeatures delta1 delta2 (r0 :: mrest),
        s.length = 26 := by
      intro s hs
      unfold computeDeltaFeatures at hs
      rw [transposeM_row_length _ s hs, hS_len]
    have hdF_ne : computeDeltaFeatures delta1 delta2 (r0 :: mrest) ≠ [] := by
      intro hnil
      rw [hnil] at hdF_len
      simp at hdF_len
    have hdF_head :
        ((computeDeltaFeatures delta1 delta2
          (r0 :: mrest)).headD []).length = 26 :=
      headD_length_rect 26 hdF_ne hdF_rows
    have hPM_rows : ∀ s ∈ zeroRows window_size r0.length ++ (r0 :: mrest) ++
        zeroRows window_size r0.length, s.length = 13 := by
      intro s hs
      rcases List.mem_append.mp hs with h12 | h3
      · rcases List.mem_append.mp h12 with h1 | h2
        · rw [List.eq_of_mem_replicate h1]
          simp [hr0]
        · exact hrect s h2
      · rw [List.eq_of_mem_replicate h3]
        simp [hr0]
    have hPD_rows : ∀ s ∈
        zeroRows window_size
            ((computeDeltaFeatures delta1 delta2
              (r0 :: mrest)).headD []).length ++
          computeDeltaFeatures delta1 delta2 (r0 :: mrest) ++
          zeroRows window_size
            ((computeDeltaFeatures delta1 delta2
              (r0 :: mrest)).headD []).length, s.length = 26 := by
      intro s hs
      rcases List.mem_append.mp hs with h12 | h3
      · rcases List.mem_append.mp h12 with h1 | h2
        · rw [List.eq_of_mem_replicate h1]
          simp only [List.length_replicate]
          exact hdF_head
        · exact hdF_rows s h2
      · rw [List.eq_of_mem_replicate h3]
        simp only [List.length_replicate]
        exact hdF_head
    have hPM_len : (zeroRows window_size r0.length ++ (r0 :: mrest) ++
        zeroRows window_size r0.length).length =
        window_size + (r0 :: mrest).length + window_size := by
      simp [zeroRows]
      omega
    have hPD_len : (zeroRows window_size
          ((computeDeltaFeatures delta1 delta2
            (r0 :: mrest)).headD []).length ++
        computeDeltaFeatures delta1 delta2 (r0 :: mrest) ++
        zeroRows window_size
          ((computeDeltaFeatures delta1 delta2
            (r0 :: mrest)).headD []).length).length =
        window_size + (r0 :: mrest).length + window_size := by
      simp [zeroRows, hdF_len]
      omega
    refine ⟨_, _, hkrow.symm.trans rfl, ?_, ?_⟩
    · have hslice : ∀ s ∈ pySlice
          (zeroRows window_size r0.length ++ (r0 :: mrest) ++
            zeroRows window_size r0.length)
          (window_size + k - window_size)
          (window_size + k + window_size), s.length = 13 := by
        intro s hs
        refine hPM_rows s ?_
        exact (List.Sublist.trans (List.take_sublist _ _)
          (List.drop_sublist _ _)).mem hs
      rw [flatten_length_rect _ 13 hslice]
      have hlen : (pySlice
          (zeroRows window_size r0.length ++ (r0 :: mrest) ++
            zeroRows window_size r0.length)
          (window_size + k - window_size)
          (window_size + k + window_size)).length = 2 * window_size := by
        simp only [pySlice, List.length_take, List.length_drop, hPM_len]
        omega
      rw [hlen]
    · have hslice : ∀ s ∈ pySlice
          (zeroRows window_size
              ((computeDeltaFeatures delta1 delta2
                (r0 :: mrest)).headD []).length ++
            computeDeltaFeatures delta1 delta2 (r0 :: mrest) ++
            zeroRows window_size
              ((computeDeltaFeatures delta1 delta2
                (r0 :: mrest)).headD []).length)
          (window_size + k - window_size)
          (window_size + k + window_size), s.length = 26 := by
        intro s hs
        refine hPD_rows s ?_
        exact (List.Sublist.trans (List.take_sublist _ _)
          (List.drop_sublist _ _)).mem hs
      rw [flatten_length_rect _ 26 hslice]
      have hlen : (pySlice
          (zeroRows window_size
              ((computeDeltaFeatures delta1 delta2
                (r0 :: mrest)).headD []).length ++
            computeDeltaFeatures delta1 delta2 (r0 :: mrest) ++
            zeroRows window_size
              ((computeDeltaFeatures delta1 delta2
                (r0 :: mrest)).headD []).length)
          (window_size + k - window_size)
          (window_size + k + window_size)).length = 2 * window_size := by
        simp only [pySlice, List.length_take, List.length_drop, hPD_len]
        omega
      rw [hlen]

/-- C2 counterexample: with identity (shape-preserving) delta functions,
one 13-column MFCC frame and `window_size = 1`, the single feature row
has width 78 = 2·1·13 + 2·1·26, not 4·1·13 = 52 as the claim states. -/
theorem getFeatureList_row_width_cex :
    ((getFeatureList (fun M => M) (fun M => M)
        [List.replicate 13 (0 : ℚ)] 1).headD []).length = 78 ∧
      (78 : ℕ) ≠ 4 * 1 * 13 := by
  constructor
  · rfl
  · decide

/-- Witness for the amended C2 at the concrete one-frame matrix. -/
theorem getFeatureList_row_width_witness :
    ∃ u v, ((getFeatureList (fun M => M) (fun M => M)
        [List.replicate 13 (0 : ℚ)] 1).headD []) = u ++ v ∧
      u.length = 2 * 1 * 13 ∧ v.length = 2 * 1 * 26 :=
  getFeatureList_row_width (fun M => M) (fun M => M)
    (fun _ => rfl) (fun _ => rfl) [List.replicate 13 (0 : ℚ)] 1
    (by simp) _
    (headD_mem_self _ _ (by simp [getFeatureList]))

/-! ## Low-pass filter (`lowpass`)

The scipy calls are modelled at their interface: `signal.butter` and the
initial-state computation `lfilter_zi` used inside `filtfilt` are external
and enter as function parameters; the linear difference equation of
`lfilter` (transposed direct form II) and the default padding and slicing
of `filtfilt` (`padtype='odd'`, `padlen = 3 * max(len(a), len(b))`) are
embedded over the rationals. -/

/-- One step of scipy's `lfilter` in transposed direct form II: output
`y = (b0*x + z0)/a0` and updated delay line. -/
def lfilterStep (b a : List ℚ) (z : List ℚ) (x : ℚ) : ℚ × List ℚ :=
  ((b.headD 0 * x + z.headD 0) / a.headD 0,
    (List.range (max b.length a.length - 1)).map
      (fun i => b.getD (i + 1) 0 * x + z.getD (i + 1) 0 -
        a.getD (i + 1) 0 * ((b.headD 0 * x + z.headD 0) / a.headD 0)))

/-- scipy's `lfilter` run over a signal from the delay-line state `z`,
returning the output signal. -/
def lfilterGo (b a : List ℚ) : List ℚ → List ℚ → List ℚ
  | _, [] => []
  | z, x :: xs =>
    (lfilterStep b a z x).1 :: lfilterGo b a (lfilterStep b a z x).2 xs

/-- scipy's odd extension `odd_ext(x, p)`: reflect `p` samples around the
first and last sample at both ends. -/
def oddExt (x : List ℚ) (p : ℕ) : List ℚ :=
  ((x.drop 1).take p).reverse.map (fun v => 2 * x.headD 0 - v) ++ x ++
    ((x.reverse.drop 1).take p).map (fun v => 2 * x.reverse.headD 0 - v)

/-- scipy's `filtfilt(b, a, x)` with the default `method='pad'`,
`padtype='odd'` and `padlen = 3 * max(len(a), len(b))`: odd-extend,
filter forward with initial state `lfilter_zi(b,a) * ext[0]`, reverse,
filter again with state scaled by the new first sample, reverse back and
slice the padding off.  The external `lfilter_zi` is the parameter
`lzi`. -/
def filtfilt (lzi : List ℚ → List ℚ → List ℚ) (b a : List ℚ)
    (x : List ℚ) : List ℚ :=
  let p := 3 * max a.length b.length
  let ext := oddExt x p
  let zi := lzi b a
  let y1 := lfilterGo b a (zi.map (fun w => w * ext.headD 0)) ext
  let y2 := lfilterGo b a
    (zi.map (fun w => w * y1.reverse.headD 0)) y1.reverse
  let y := y2.reverse
  (y.drop p).take (y.length - 2 * p)

set_option linter.unusedVariables false in
/-- Source function `lowpass`: the `filter_order` argument is
unconditionally overwritten with 2, a Butterworth filter (external
`signal.butter`, parameter `butter`) is designed at that order and the
cutoff, and the signal is filtered forward-backward with `filtfilt`. -/
def lowpass (butter : ℕ → ℚ → List ℚ × List ℚ)
    (lzi : List ℚ → List ℚ → List ℚ) (sig : List ℚ)
    (filter_order : ℕ) (cutoff : ℚ) : List ℚ :=
  let filter_order := 2
  let BA := butter filter_order cutoff
  filtfilt lzi BA.1 BA.2 sig

theorem lfilterGo_length (b a : List ℚ) :
    ∀ (x z : List ℚ), (lfilterGo b a z x).length = x.length := by
  intro x
  induction x with
  | nil => intro z; rfl
  | cons v xs ih =>
    intro z
    rw [lfilterGo, List.length_cons, ih, List.length_cons]

theorem getD_all_zero : ∀ (z : List ℚ) (j : ℕ),
    (∀ v ∈ z, v = 0) → z.getD j 0 = 0 := by
  intro z
  induction z with
  | nil => intro j _; simp
  | cons w zs ih =>
    intro j h
    cases j with
    | zero => simpa using h w (by simp)
    | succ j' =>
      simp only [List.getD_cons_succ]
      exact ih j' (fun v hv => h v (by simp [hv]))

theorem lfilterStep_zero (b a : List ℚ) (z : List ℚ)
    (hz : ∀ v ∈ z, v = 0) :
    (lfilterStep b a z 0).1 = 0 ∧
      ∀ v ∈ (lfilterStep b a z 0).2, v = 0 := by
  have hz0 : z.headD 0 = 0 := by
    cases z with
    | nil => rfl
    | cons w zs => simpa using hz w (by simp)
  constructor
  · show (b.headD 0 * 0 + z.headD 0) / a.headD 0 = 0
    rw [hz0, mul_zero, zero_add, zero_div]
  · intro v hv
    simp only [lfilterStep, List.mem_map, List.mem_range] at hv
    obtain ⟨i, _, rfl⟩ := hv
    rw [getD_all_zero z (i + 1) hz, hz0]
    simp

theorem lfilterGo_zero (b a : List ℚ) :
    ∀ (x z : List ℚ), (∀ v ∈ z, v = 0) → (∀ v ∈ x, v = 0) →
      lfilterGo b a z x = List.replicate x.length 0 := by
  intro x
  induction x with
  | nil => intro z _ _; rfl
  | cons v xs ih =>
    intro z hz hx
    have hv : v = 0 := hx v (by simp)
    obtain ⟨h1, h2⟩ := lfilterStep_zero b a z hz
    rw [lfilterGo, hv, h1,
      ih _ h2 (fun u hu => hx u (by simp [hu]))]
    simp [List.replicate_succ]

theorem oddExt_zero (n p : ℕ) :
    oddExt (List.replicate n (0 : ℚ)) p =
      List.replicate (min p (n - 1) + n + min p (n - 1)) 0 := by
  have hh : (List.replicate n (0 : ℚ)).headD 0 = 0 := by
    cases n <;> simp [List.replicate_succ]
  have hrev : (List.replicate n (0 : ℚ)).reverse = List.replicate n 0 :=
    List.reverse_replicate n 0
  rw [oddExt, hrev, hh]
  simp only [List.drop_replicate, List.take_replicate,
    List.reverse_replicate, List.map_replicate]
  norm_num

theorem filtfilt_length (lzi : List ℚ → List ℚ → List ℚ)
    (b a : List ℚ) (x : List ℚ)
    (hx : 3 * max a.length b.length < x.length) :
    (filtfilt lzi b a x).length = x.length := by
  have hext : (oddExt x (3 * max a.length b.length)).length =
      x.length + 2 * (3 * max a.length b.length) := by
    simp only [oddExt, List.length_append, List.length_map,
      List.length_reverse, List.length_take, List.length_drop]
    omega
  simp only [filtfilt, List.length_take, List.length_drop,
    List.length_reverse, lfilterGo_length, hext]
  omega

theorem filtfilt_zero (lzi : List ℚ → List ℚ → List ℚ)
    (b a : List ℚ) (n : ℕ) (hn : 3 * max a.length b.length < n) :
    filtfilt lzi b a (List.replicate n 0) = List.replicate n 0 := by
  have hmin : min (3 * max a.length b.length) (n - 1) =
      3 * max a.length b.length := by omega
  have hext := oddExt_zero n (3 * max a.length b.length)
  rw [hmin] at hext
  have hL : 3 * max a.length b.length + n + 3 * max a.length b.length =
      n + 2 * (3 * max a.length b.length) := by omega
  rw [hL] at hext
  have hzrep : ∀ m : ℕ, ∀ v ∈ List.replicate m (0 : ℚ), v = 0 := by
    intro m v hv
    exact List.eq_of_mem_replicate hv
  have hheadrep : ∀ m : ℕ, (List.replicate m (0 : ℚ)).headD 0 = 0 := by
    intro m; cases m <;> simp [List.replicate_succ]
  have hzimap : ∀ (zi : List ℚ) (m : ℕ),
      ∀ v ∈ zi.map (fun w => w * (List.replicate m (0 : ℚ)).headD 0),
        v = 0 := by
    intro zi m v hv
    obtain ⟨w, _, rfl⟩ := List.mem_map.mp hv
    rw [hheadrep]
    ring
  simp only [filtfilt, hext]
  rw [lfilterGo_zero b a _ _ (hzimap _ _) (hzrep _),
    List.length_replicate, List.reverse_replicate]
  rw [lfilterGo_zero b a _ _ (hzimap _ _) (hzrep _),
    List.length_replicate, List.reverse_replicate]
  rw [List.length_replicate, List.drop_replicate, List.take_replicate]
  congr 1
  omega

/-- C9: for every external butter design and initial-state function, a
signal longer than the padding requirement that is all zero is mapped by
`lowpass` to the all-zero signal of the same length (exactly, in the
rational model), and `lowpass` preserves the length of any such signal. -/
theorem lowpass_zero_and_length (butter : ℕ → ℚ → List ℚ × List ℚ)
    (lzi : List ℚ → List ℚ → List ℚ) (sig : List ℚ)
    (filter_order : ℕ) (cutoff : ℚ)
    (hlen : 3 * max (butter 2 cutoff).2.length
      (butter 2 cutoff).1.length < sig.length) :
    (lowpass butter lzi sig filter_order cutoff).length = sig.length ∧
      ((∀ v ∈ sig, v = 0) →
        lowpass butter lzi sig filter_order cutoff =
          List.replicate sig.length 0) := by
  constructor
  · exact filtfilt_length lzi _ _ sig hlen
  · intro hz
    have hrep : sig = List.replicate sig.length 0 := by
      rw [List.eq_replicate_iff]
      exact ⟨rfl, hz⟩
    calc lowpass butter lzi sig filter_order cutoff
        = filtfilt lzi (butter 2 cutoff).1 (butter 2 cutoff).2 sig := rfl
      _ = List.replicate sig.length 0 := by
          rw [hrep, List.length_replicate]
          exact filtfilt_zero lzi _ _ sig.length
            (by rw [← List.length_replicate sig.length (0 : ℚ), ← hrep]
                exact hlen)

/-- Witness for C9 with concrete second-order coefficients and a ten-zero
signal. -/
theorem lowpass_zero_and_length_witness :
    (lowpass (fun _ _ => ([1, 0, 0], [1, 0, 0])) (fun _ _ => [0, 0])
      (List.replicate 10 0) 5 (1/100)).length =
      (List.replicate 10 (0 : ℚ)).length ∧
    lowpass (fun _ _ => ([1, 0, 0], [1, 0, 0])) (fun _ _ => [0, 0])
      (List.replicate 10 0) 5 (1/100) =
      List.replicate (List.replicate 10 (0 : ℚ)).length 0 :=
  ⟨(lowpass_zero_and_length (fun _ _ => ([1, 0, 0], [1, 0, 0]))
      (fun _ _ => [0, 0]) (List.replicate 10 0) 5 (1/100) (by simp)).1,
    (lowpass_zero_and_length (fun _ _ => ([1, 0, 0], [1, 0, 0]))
      (fun _ _ => [0, 0]) (List.replicate 10 0) 5 (1/100) (by simp)).2
      (fun v hv => List.eq_of_mem_replicate hv)⟩

/-- C10: `lowpass` ignores its `filter_order` argument: the parameter is
unconditionally overwritten with 2 before the Butterworth design, so any
two orders give identical output for the same signal and cutoff. -/
theorem lowpass_ignores_filter_order (butter : ℕ → ℚ → List ℚ × List ℚ)
    (lzi : List ℚ → List ℚ → List ℚ) (sig : List ℚ)
    (o1 o2 : ℕ) (cutoff : ℚ) :
    lowpass butter lzi sig o1 cutoff = lowpass butter lzi sig o2 cutoff :=
  rfl

end LaughAnalysis
